import Mathlib

/-!
# Verification of the shadowsocks-ws AEAD framing engine and relay state machine

Shallow embedding of `src/server.mjs` (the per-connection WebSocket handler):

* the **Inbound Framer** — the `ws.on('message')` buffering / salt extraction /
  decrypt loop (lines 77–133), embedded as `feed` over `IFState`;
* the **Outbound Framer** — the `remote.on('data')` encrypt loop and the
  `tx` coalescing / `ws.send` logic (lines 190–211), embedded as `ofData`,
  `ofEvents`, `ofMessages`;
* the **address-header parse** of the relay state machine (lines 142–171),
  embedded as `parseAddress` / `consumeFirst`;
* the **drain loop** backpressure behaviour (lines 222–231), embedded as an
  action trace `drainActions`;
* the **stage / remote lifecycle** (lines 70–73, 139–231, 234–238), embedded
  as a small transition system `step` on `Conn`.

Bytes are modelled as `Nat` (values < 256 on the wire; none of the proved
properties depends on the bound).  Buffers are `List Nat`.

The AEAD primitive itself lives in `aead.mjs`, which is not part of the
sources.  Modelled from the spec: an AEAD method is an abstract pair of
functions `enc : Nat → List Nat → List Nat × List Nat` (nonce and plaintext to
ciphertext and tag) and `dec : Nat → List Nat → List Nat → Option (List Nat)`
(nonce, ciphertext and tag to plaintext, `none` on authentication failure).
The decrypt nonce advances exactly on success, the encrypt nonce
unconditionally, as the specification states; theorems that need the AEAD
round trip take it as an explicit hypothesis.
-/

/-- `TAG_SIZE` of both supported AEAD methods (16 bytes). -/
def TAG_SIZE : Nat := 16

/-- `SALT_SIZE` of both supported AEAD methods (32 bytes). -/
def SALT_SIZE : Nat := 32

/-- `buf.writeUInt16BE(L)` into a fresh 2-byte buffer (`server.mjs` lines 200–201). -/
def uint16be (L : Nat) : List Nat := [L / 256 % 256, L % 256]

/-- `buf.readUInt16BE(0)` (`server.mjs` line 125).  Node throws if the buffer
holds fewer than 2 bytes; the framer only ever applies it to a decrypted
length frame, whose plaintext has the 2-byte length of its ciphertext, so the
fallback value 0 of the total model is never reached on AEAD-produced data. -/
def readUInt16BE : List Nat → Nat
  | a :: b :: _ => a * 256 + b
  | _ => 0

/-- Decryption context of a connection: the decipher nonce counter together
with the mutable locals `cipherTextSize` (line 61) and `chunkIndex` (line 62). -/
structure DecCtx where
  nonce : Nat
  cipherTextSize : Nat
  chunkIndex : Nat
deriving DecidableEq, Repr

/-- Result of one run of the decrypt loop (`server.mjs` lines 103–132):
final context, leftover bytes kept for the next message (`rx`), the payloads
pushed onto `payloads` in order, and whether the connection was terminated by
an authentication failure. -/
structure ProcResult where
  ctx : DecCtx
  rest : List Nat
  outs : List (List Nat)
  term : Bool
deriving DecidableEq, Repr

/-- Fuel-indexed version of the decrypt loop.  Each iteration consumes
`cipherTextSize + TAG_SIZE ≥ 16 ≥ 1` bytes, so any fuel of at least
`data.length` is enough; `processFrames` below instantiates the fuel, and the
lemmas `processFrames_short`, `processFrames_fail`, `processFrames_even`,
`processFrames_odd` are the only interfaces used afterwards. -/
def pf (dec : Nat → List Nat → List Nat → Option (List Nat)) :
    Nat → DecCtx → List Nat → ProcResult
  | 0, ctx, data => ⟨ctx, data, [], false⟩
  | fuel + 1, ctx, data =>
    let chunkSize := ctx.cipherTextSize + TAG_SIZE
    if data.length < chunkSize then
      ⟨ctx, data, [], false⟩
    else
      let chunk := data.take chunkSize
      let cipherText := chunk.take ctx.cipherTextSize
      let authTag := chunk.drop ctx.cipherTextSize
      match dec ctx.nonce cipherText authTag with
      | none => ⟨ctx, [], [], true⟩
      | some plainText =>
        let ctx2 : DecCtx :=
          if ctx.chunkIndex % 2 = 0 then
            ⟨ctx.nonce + 1, readUInt16BE plainText, ctx.chunkIndex + 1⟩
          else
            ⟨ctx.nonce + 1, 2, ctx.chunkIndex + 1⟩
        let r := pf dec fuel ctx2 (data.drop chunkSize)
        if ctx.chunkIndex % 2 = 0 then
          ⟨r.ctx, r.rest, r.outs, r.term⟩
        else
          ⟨r.ctx, r.rest, plainText :: r.outs, r.term⟩

/-- The decrypt loop of `server.mjs` lines 103-132, fed by `feed` below. -/
def processFrames (dec : Nat → List Nat → List Nat → Option (List Nat))
    (ctx : DecCtx) (data : List Nat) : ProcResult :=
  pf dec data.length ctx data

theorem pf_nil (dec : Nat → List Nat → List Nat → Option (List Nat))
    (fuel : Nat) (ctx : DecCtx) : pf dec fuel ctx [] = ⟨ctx, [], [], false⟩ := by
  cases fuel with
  | zero => rfl
  | succ f =>
    have h : ([] : List Nat).length < ctx.cipherTextSize + TAG_SIZE := by
      simp only [List.length_nil, TAG_SIZE]
      omega
    simp only [pf]
    rw [if_pos h]

/-- Fuel is irrelevant once it dominates the input length. -/
theorem pf_fuel_congr (dec : Nat → List Nat → List Nat → Option (List Nat)) :
    ∀ f g ctx data, data.length ≤ f → data.length ≤ g →
      pf dec f ctx data = pf dec g ctx data := by
  intro f
  induction f with
  | zero =>
    intro g ctx data hf _
    have : data = [] := List.length_eq_zero.mp (Nat.le_zero.mp hf)
    subst this
    rw [pf_nil, pf_nil]
  | succ f ih =>
    intro g ctx data hf hg
    cases data with
    | nil => rw [pf_nil, pf_nil]
    | cons x xs =>
      cases g with
      | zero => simp at hg
      | succ g =>
        simp only [pf]
        by_cases hshort : (x :: xs).length < ctx.cipherTextSize + TAG_SIZE
        · simp only [if_pos hshort]
        · simp only [if_neg hshort]
          cases hdec : dec ctx.nonce
              (List.take ctx.cipherTextSize (List.take (ctx.cipherTextSize + TAG_SIZE) (x :: xs)))
              (List.drop ctx.cipherTextSize (List.take (ctx.cipherTextSize + TAG_SIZE) (x :: xs))) with
          | none => rfl
          | some plainText =>
            simp only []
            have hT : TAG_SIZE = 16 := rfl
            have hlf : (List.drop (ctx.cipherTextSize + TAG_SIZE) (x :: xs)).length ≤ f := by
              simp only [List.length_drop, List.length_cons]
              simp only [List.length_cons] at hf
              omega
            have hlg : (List.drop (ctx.cipherTextSize + TAG_SIZE) (x :: xs)).length ≤ g := by
              simp only [List.length_drop, List.length_cons]
              simp only [List.length_cons] at hg
              omega
            rw [ih g _ _ hlf hlg]

theorem processFrames_nil (dec : Nat → List Nat → List Nat → Option (List Nat))
    (ctx : DecCtx) : processFrames dec ctx [] = ⟨ctx, [], [], false⟩ :=
  pf_nil dec 0 ctx

/-- Unfolding rule: too few buffered bytes, the loop stores the leftover in
`rx` and waits (`server.mjs` lines 105-109). -/
theorem processFrames_short (dec : Nat → List Nat → List Nat → Option (List Nat))
    (ctx : DecCtx) (data : List Nat)
    (h : data.length < ctx.cipherTextSize + TAG_SIZE) :
    processFrames dec ctx data = ⟨ctx, data, [], false⟩ := by
  cases data with
  | nil => exact processFrames_nil dec ctx
  | cons x xs =>
    show pf dec (x :: xs).length ctx (x :: xs) = _
    rw [List.length_cons]
    simp only [pf]
    rw [if_pos h]

/-- Unfolding rule: a full frame is available but fails authentication; the
handler terminates the connection, discarding the rest of the message
(lines 118-122). -/
theorem processFrames_fail (dec : Nat → List Nat → List Nat → Option (List Nat))
    (ctx : DecCtx) (data : List Nat)
    (h : ctx.cipherTextSize + TAG_SIZE ≤ data.length)
    (hdec : dec ctx.nonce ((data.take (ctx.cipherTextSize + TAG_SIZE)).take ctx.cipherTextSize)
      ((data.take (ctx.cipherTextSize + TAG_SIZE)).drop ctx.cipherTextSize) = none) :
    processFrames dec ctx data = ⟨ctx, [], [], true⟩ := by
  cases data with
  | nil =>
    have hT : TAG_SIZE = 16 := rfl
    simp only [List.length_nil] at h
    omega
  | cons x xs =>
    show pf dec (x :: xs).length ctx (x :: xs) = _
    rw [List.length_cons]
    simp only [pf]
    rw [if_neg (by omega : ¬ (x :: xs).length < ctx.cipherTextSize + TAG_SIZE), hdec]

/-- Unfolding rule: a full frame is available, authenticates, and the current
chunk is a length chunk (`chunkIndex` even): the decoded 16-bit value becomes
the next `cipherTextSize` - the code installs it without any range check
(line 125) - and nothing is enqueued. -/
theorem processFrames_even (dec : Nat → List Nat → List Nat → Option (List Nat))
    (ctx : DecCtx) (data : List Nat) (plainText : List Nat)
    (h : ctx.cipherTextSize + TAG_SIZE ≤ data.length)
    (hci : ctx.chunkIndex % 2 = 0)
    (hdec : dec ctx.nonce ((data.take (ctx.cipherTextSize + TAG_SIZE)).take ctx.cipherTextSize)
      ((data.take (ctx.cipherTextSize + TAG_SIZE)).drop ctx.cipherTextSize) = some plainText) :
    processFrames dec ctx data =
      processFrames dec ⟨ctx.nonce + 1, readUInt16BE plainText, ctx.chunkIndex + 1⟩
        (data.drop (ctx.cipherTextSize + TAG_SIZE)) := by
  cases data with
  | nil =>
    have hT : TAG_SIZE = 16 := rfl
    simp only [List.length_nil] at h
    omega
  | cons x xs =>
    show pf dec (x :: xs).length ctx (x :: xs) = _
    rw [List.length_cons]
    simp only [pf]
    rw [if_neg (by omega : ¬ (x :: xs).length < ctx.cipherTextSize + TAG_SIZE), hdec]
    simp only [hci, eq_self_iff_true, if_true]
    have hT : TAG_SIZE = 16 := rfl
    have hlen : (List.drop (ctx.cipherTextSize + TAG_SIZE) (x :: xs)).length ≤ xs.length := by
      simp only [List.length_drop, List.length_cons]
      omega
    rw [pf_fuel_congr dec xs.length (List.drop (ctx.cipherTextSize + TAG_SIZE) (x :: xs)).length
      _ _ hlen (Nat.le_refl _)]
    rfl

/-- Unfolding rule: a full frame is available, authenticates, and the current
chunk is a payload chunk (`chunkIndex` odd): the plaintext is enqueued and
`cipherTextSize` resets to 2 (lines 126-130). -/
theorem processFrames_odd (dec : Nat → List Nat → List Nat → Option (List Nat))
    (ctx : DecCtx) (data : List Nat) (plainText : List Nat)
    (h : ctx.cipherTextSize + TAG_SIZE ≤ data.length)
    (hci : ¬ ctx.chunkIndex % 2 = 0)
    (hdec : dec ctx.nonce ((data.take (ctx.cipherTextSize + TAG_SIZE)).take ctx.cipherTextSize)
      ((data.take (ctx.cipherTextSize + TAG_SIZE)).drop ctx.cipherTextSize) = some plainText) :
    processFrames dec ctx data =
      { processFrames dec ⟨ctx.nonce + 1, 2, ctx.chunkIndex + 1⟩
          (data.drop (ctx.cipherTextSize + TAG_SIZE)) with
        outs := plainText ::
          (processFrames dec ⟨ctx.nonce + 1, 2, ctx.chunkIndex + 1⟩
            (data.drop (ctx.cipherTextSize + TAG_SIZE))).outs } := by
  cases data with
  | nil =>
    have hT : TAG_SIZE = 16 := rfl
    simp only [List.length_nil] at h
    omega
  | cons x xs =>
    show pf dec (x :: xs).length ctx (x :: xs) = _
    rw [List.length_cons]
    simp only [pf]
    rw [if_neg (by omega : ¬ (x :: xs).length < ctx.cipherTextSize + TAG_SIZE), hdec]
    simp only [hci, if_neg, if_false]
    have hT : TAG_SIZE = 16 := rfl
    have hlen : (List.drop (ctx.cipherTextSize + TAG_SIZE) (x :: xs)).length ≤ xs.length := by
      simp only [List.length_drop, List.length_cons]
      omega
    rw [pf_fuel_congr dec xs.length (List.drop (ctx.cipherTextSize + TAG_SIZE) (x :: xs)).length
      _ _ hlen (Nat.le_refl _)]
    rfl

/-- Splitting the input to the decrypt loop at any point and resuming on the
leftover plus the remainder gives the same result as one run: the loop is a
strict state machine over the accumulated buffer. -/
theorem processFrames_append (dec : Nat → List Nat → List Nat → Option (List Nat)) :
    ∀ n ctx (a b : List Nat), a.length ≤ n →
      processFrames dec ctx (a ++ b) =
        (if (processFrames dec ctx a).term then processFrames dec ctx a
         else
           ⟨(processFrames dec (processFrames dec ctx a).ctx
              ((processFrames dec ctx a).rest ++ b)).ctx,
            (processFrames dec (processFrames dec ctx a).ctx
              ((processFrames dec ctx a).rest ++ b)).rest,
            (processFrames dec ctx a).outs ++
              (processFrames dec (processFrames dec ctx a).ctx
                ((processFrames dec ctx a).rest ++ b)).outs,
            (processFrames dec (processFrames dec ctx a).ctx
              ((processFrames dec ctx a).rest ++ b)).term⟩) := by
  intro n
  induction n with
  | zero =>
    intro ctx a b ha
    have : a = [] := List.length_eq_zero.mp (Nat.le_zero.mp ha)
    subst this
    simp only [List.nil_append, processFrames_nil]
    rfl
  | succ n ih =>
    intro ctx a b ha
    by_cases hshort : a.length < ctx.cipherTextSize + TAG_SIZE
    · rw [processFrames_short dec ctx a hshort]
      rfl
    · have hlong : ctx.cipherTextSize + TAG_SIZE ≤ a.length := by omega
      have hlongab : ctx.cipherTextSize + TAG_SIZE ≤ (a ++ b).length := by
        rw [List.length_append]; omega
      have htake : (a ++ b).take (ctx.cipherTextSize + TAG_SIZE) =
          a.take (ctx.cipherTextSize + TAG_SIZE) :=
        List.take_append_of_le_length hlong
      have hdrop : (a ++ b).drop (ctx.cipherTextSize + TAG_SIZE) =
          a.drop (ctx.cipherTextSize + TAG_SIZE) ++ b :=
        List.drop_append_of_le_length hlong
      have hT : TAG_SIZE = 16 := rfl
      have hlen : (a.drop (ctx.cipherTextSize + TAG_SIZE)).length ≤ n := by
        rw [List.length_drop]; omega
      cases hdec : dec ctx.nonce
          ((a.take (ctx.cipherTextSize + TAG_SIZE)).take ctx.cipherTextSize)
          ((a.take (ctx.cipherTextSize + TAG_SIZE)).drop ctx.cipherTextSize) with
      | none =>
        have hdec2 : dec ctx.nonce
            (((a ++ b).take (ctx.cipherTextSize + TAG_SIZE)).take ctx.cipherTextSize)
            (((a ++ b).take (ctx.cipherTextSize + TAG_SIZE)).drop ctx.cipherTextSize) = none := by
          rw [htake]; exact hdec
        rw [processFrames_fail dec ctx (a ++ b) hlongab hdec2,
          processFrames_fail dec ctx a hlong hdec]
        rfl
      | some plainText =>
        have hdec2 : dec ctx.nonce
            (((a ++ b).take (ctx.cipherTextSize + TAG_SIZE)).take ctx.cipherTextSize)
            (((a ++ b).take (ctx.cipherTextSize + TAG_SIZE)).drop ctx.cipherTextSize) =
            some plainText := by
          rw [htake]; exact hdec
        by_cases hci : ctx.chunkIndex % 2 = 0
        · rw [processFrames_even dec ctx (a ++ b) plainText hlongab hci hdec2,
            processFrames_even dec ctx a plainText hlong hci hdec, hdrop]
          exact ih _ _ b hlen
        · rw [processFrames_odd dec ctx (a ++ b) plainText hlongab hci hdec2,
            processFrames_odd dec ctx a plainText hlong hci hdec, hdrop,
            ih _ _ b hlen]
          cases hterm : (processFrames dec
              ⟨ctx.nonce + 1, 2, ctx.chunkIndex + 1⟩
              (a.drop (ctx.cipherTextSize + TAG_SIZE))).term with
          | true => simp [hterm]
          | false => simp [hterm]

/-- Unless it terminated, the decrypt loop only stops when the leftover is
shorter than the next frame (lines 105–109), so re-feeding it alone is a
no-op. -/
theorem processFrames_rest_short (dec : Nat → List Nat → List Nat → Option (List Nat)) :
    ∀ n ctx (data : List Nat), data.length ≤ n →
      (processFrames dec ctx data).term = true ∨
      (processFrames dec ctx data).rest.length <
        (processFrames dec ctx data).ctx.cipherTextSize + TAG_SIZE := by
  intro n
  induction n with
  | zero =>
    intro ctx data ha
    have : data = [] := List.length_eq_zero.mp (Nat.le_zero.mp ha)
    subst this
    rw [processFrames_nil]
    right
    simp [TAG_SIZE]
  | succ n ih =>
    intro ctx data ha
    by_cases hshort : data.length < ctx.cipherTextSize + TAG_SIZE
    · rw [processFrames_short dec ctx data hshort]
      right
      exact hshort
    · have hlong : ctx.cipherTextSize + TAG_SIZE ≤ data.length := by omega
      have hT : TAG_SIZE = 16 := rfl
      have hlen : (data.drop (ctx.cipherTextSize + TAG_SIZE)).length ≤ n := by
        rw [List.length_drop]; omega
      cases hdec : dec ctx.nonce
          ((data.take (ctx.cipherTextSize + TAG_SIZE)).take ctx.cipherTextSize)
          ((data.take (ctx.cipherTextSize + TAG_SIZE)).drop ctx.cipherTextSize) with
      | none =>
        rw [processFrames_fail dec ctx data hlong hdec]
        left
        rfl
      | some plainText =>
        by_cases hci : ctx.chunkIndex % 2 = 0
        · rw [processFrames_even dec ctx data plainText hlong hci hdec]
          exact ih _ _ hlen
        · rw [processFrames_odd dec ctx data plainText hlong hci hdec]
          exact ih _ _ hlen

/-- Per-connection decryption-side state of the `ws.on('message')` handler
(`server.mjs` lines 59–63): the `rx` buffer (modelled flattened — the handler
concatenates it on entry, lines 79–83), whether `decipher` is initialized,
the salt it was derived from, the decrypt context, and whether the connection
was terminated by an authentication failure. -/
structure IFState where
  rx : List Nat
  decInit : Bool
  salt : List Nat
  ctx : DecCtx
  terminated : Bool
deriving DecidableEq, Repr

/-- Initial per-connection state (`rx = []`, `decipher = null`,
`cipherTextSize = 2`, `chunkIndex = 0`). -/
def ifInit : IFState := ⟨[], false, [], ⟨0, 2, 0⟩, false⟩

/-- One run of the `ws.on('message')` handler's framing part (lines 77–133):
prepend the buffered bytes, extract the salt once enough bytes have arrived
(lines 86–100), then run the decrypt loop.  `decFam salt` is the decrypt
function of the decipher derived (HKDF-SHA1, info `ss-subkey`) from the
extracted salt.  Returns the new state and the payloads pushed in order.
A terminated connection receives no further messages; modelled as a no-op. -/
def feed (decFam : List Nat → Nat → List Nat → List Nat → Option (List Nat))
    (s : IFState) (input : List Nat) : IFState × List (List Nat) :=
  if s.terminated then (s, [])
  else
    let data := s.rx ++ input
    if s.decInit then
      let r := processFrames (decFam s.salt) s.ctx data
      (⟨r.rest, true, s.salt, r.ctx, r.term⟩, r.outs)
    else if data.length < SALT_SIZE then
      (⟨data, false, s.salt, s.ctx, false⟩, [])
    else
      let salt := data.take SALT_SIZE
      let r := processFrames (decFam salt) s.ctx (data.drop SALT_SIZE)
      (⟨r.rest, true, salt, r.ctx, r.term⟩, r.outs)

/-- Feeding a sequence of WebSocket messages one at a time, collecting all
emitted payloads in order. -/
def feedList (decFam : List Nat → Nat → List Nat → List Nat → Option (List Nat))
    (s : IFState) : List (List Nat) → IFState × List (List Nat)
  | [] => (s, [])
  | d :: ds =>
    let r := feed decFam s d
    let r2 := feedList decFam r.1 ds
    (r2.1, r.2 ++ r2.2)

/-- A state the handler can actually be left in between messages: terminated,
or waiting for salt bytes, or waiting for the next frame. -/
def Quiescent (s : IFState) : Prop :=
  s.terminated = true ∨
  (s.decInit = false ∧ s.rx.length < SALT_SIZE) ∨
  (s.decInit = true ∧ s.rx.length < s.ctx.cipherTextSize + TAG_SIZE)

theorem feed_nil_of_quiescent
    (decFam : List Nat → Nat → List Nat → List Nat → Option (List Nat))
    (s : IFState) (hq : Quiescent s) : feed decFam s [] = (s, []) := by
  by_cases ht : s.terminated = true
  · simp [feed, ht]
  · have ht2 : s.terminated = false := by
      cases h : s.terminated
      · rfl
      · exact absurd h ht
    rcases hq with h | ⟨h1, h2⟩ | ⟨h1, h2⟩
    · exact absurd h ht
    · simp only [feed, ht2, if_false, List.append_nil, h1, h2, if_true,
        Bool.false_eq_true]
      cases s
      simp_all
    · simp only [feed, ht2, List.append_nil, h1, if_true, Bool.false_eq_true]
      rw [processFrames_short _ _ _ h2]
      cases s
      simp_all

theorem feed_quiescent
    (decFam : List Nat → Nat → List Nat → List Nat → Option (List Nat))
    (s : IFState) (input : List Nat) (hq : Quiescent s) :
    Quiescent (feed decFam s input).1 := by
  by_cases ht : s.terminated = true
  · simp only [feed, ht, if_true]
    exact hq
  · have ht2 : s.terminated = false := by
      cases h : s.terminated
      · rfl
      · exact absurd h ht
    simp only [feed, ht2, Bool.false_eq_true, if_false]
    by_cases hd : s.decInit = true
    · simp only [hd, if_true]
      rcases processFrames_rest_short (decFam s.salt)
          (s.rx ++ input).length s.ctx (s.rx ++ input) (Nat.le_refl _) with h | h
      · left
        simpa using h
      · right; right
        simpa using h
    · have hd2 : s.decInit = false := by
        cases h : s.decInit
        · rfl
        · exact absurd h hd
      simp only [hd2, Bool.false_eq_true, if_false]
      by_cases hlen : (s.rx ++ input).length < SALT_SIZE
      · simp only [hlen, if_true]
        right; left
        exact ⟨rfl, hlen⟩
      · simp only [hlen, if_false]
        rcases processFrames_rest_short (decFam ((s.rx ++ input).take SALT_SIZE))
            ((s.rx ++ input).drop SALT_SIZE).length s.ctx
            ((s.rx ++ input).drop SALT_SIZE) (Nat.le_refl _) with h | h
        · left
          simpa using h
        · right; right
          simpa using h

theorem feed_eq_term (decFam : List Nat → Nat → List Nat → List Nat → Option (List Nat))
    (s : IFState) (input : List Nat) (h : s.terminated = true) :
    feed decFam s input = (s, []) := by
  simp [feed, h]

theorem feed_eq_dec (decFam : List Nat → Nat → List Nat → List Nat → Option (List Nat))
    (s : IFState) (input : List Nat)
    (h1 : s.terminated = false) (h2 : s.decInit = true) :
    feed decFam s input =
      (⟨(processFrames (decFam s.salt) s.ctx (s.rx ++ input)).rest, true, s.salt,
        (processFrames (decFam s.salt) s.ctx (s.rx ++ input)).ctx,
        (processFrames (decFam s.salt) s.ctx (s.rx ++ input)).term⟩,
       (processFrames (decFam s.salt) s.ctx (s.rx ++ input)).outs) := by
  simp [feed, h1, h2]

theorem feed_eq_wait (decFam : List Nat → Nat → List Nat → List Nat → Option (List Nat))
    (s : IFState) (input : List Nat)
    (h1 : s.terminated = false) (h2 : s.decInit = false)
    (h3 : (s.rx ++ input).length < SALT_SIZE) :
    feed decFam s input = (⟨s.rx ++ input, false, s.salt, s.ctx, false⟩, []) := by
  simp only [List.length_append] at h3
  simp [feed, h1, h2]
  omega

theorem feed_eq_salt (decFam : List Nat → Nat → List Nat → List Nat → Option (List Nat))
    (s : IFState) (input : List Nat)
    (h1 : s.terminated = false) (h2 : s.decInit = false)
    (h3 : SALT_SIZE ≤ (s.rx ++ input).length) :
    feed decFam s input =
      (⟨(processFrames (decFam ((s.rx ++ input).take SALT_SIZE)) s.ctx
          ((s.rx ++ input).drop SALT_SIZE)).rest, true,
        (s.rx ++ input).take SALT_SIZE,
        (processFrames (decFam ((s.rx ++ input).take SALT_SIZE)) s.ctx
          ((s.rx ++ input).drop SALT_SIZE)).ctx,
        (processFrames (decFam ((s.rx ++ input).take SALT_SIZE)) s.ctx
          ((s.rx ++ input).drop SALT_SIZE)).term⟩,
       (processFrames (decFam ((s.rx ++ input).take SALT_SIZE)) s.ctx
          ((s.rx ++ input).drop SALT_SIZE)).outs) := by
  have h4 : ¬ (s.rx ++ input).length < SALT_SIZE := by omega
  simp only [List.length_append] at h4
  simp [feed, h1, h2]
  omega

/-- The handler is split-agnostic at the level of a single split: feeding
`a ++ b` in one message equals feeding `a` then `b`, with the payload lists
concatenated. -/
theorem feed_append (decFam : List Nat → Nat → List Nat → List Nat → Option (List Nat))
    (s : IFState) (a b : List Nat) :
    feed decFam s (a ++ b) =
      ((feed decFam (feed decFam s a).1 b).1,
       (feed decFam s a).2 ++ (feed decFam (feed decFam s a).1 b).2) := by
  by_cases ht : s.terminated = true
  · rw [feed_eq_term decFam s (a ++ b) ht, feed_eq_term decFam s a ht]
    rw [feed_eq_term decFam s b ht]
    rfl
  · rw [Bool.not_eq_true] at ht
    have hassoc : s.rx ++ (a ++ b) = (s.rx ++ a) ++ b := (List.append_assoc _ _ _).symm
    by_cases hd : s.decInit = true
    · rw [feed_eq_dec decFam s (a ++ b) ht hd, feed_eq_dec decFam s a ht hd, hassoc,
        processFrames_append (decFam s.salt) (s.rx ++ a).length s.ctx (s.rx ++ a) b
          (Nat.le_refl _)]
      cases hterm : (processFrames (decFam s.salt) s.ctx (s.rx ++ a)).term with
      | true =>
        simp only [hterm, if_true]
        rw [feed_eq_term decFam _ b rfl]
        simp
      | false =>
        simp only [hterm, Bool.false_eq_true, if_false]
        rw [feed_eq_dec decFam _ b rfl rfl]
    · rw [Bool.not_eq_true] at hd
      by_cases hsl : (s.rx ++ a).length < SALT_SIZE
      · rw [feed_eq_wait decFam s a ht hd hsl]
        by_cases hslb : ((s.rx ++ a) ++ b).length < SALT_SIZE
        · rw [feed_eq_wait decFam s (a ++ b) ht hd (by rw [hassoc]; exact hslb)]
          rw [feed_eq_wait decFam _ b rfl rfl
            (by simp only [List.length_append] at hslb ⊢; omega)]
          rw [hassoc]
          simp
        · have hslb2 : SALT_SIZE ≤ ((s.rx ++ a) ++ b).length := by omega
          rw [feed_eq_salt decFam s (a ++ b) ht hd (by rw [hassoc]; exact hslb2)]
          rw [feed_eq_salt decFam _ b rfl rfl
            (by simp only [List.length_append] at hslb2 ⊢; omega)]
          rw [hassoc]
          simp
      · have hsl2 : SALT_SIZE ≤ (s.rx ++ a).length := by omega
        have htk : ((s.rx ++ a) ++ b).take SALT_SIZE = (s.rx ++ a).take SALT_SIZE :=
          List.take_append_of_le_length hsl2
        have hdp : ((s.rx ++ a) ++ b).drop SALT_SIZE = (s.rx ++ a).drop SALT_SIZE ++ b :=
          List.drop_append_of_le_length hsl2
        rw [feed_eq_salt decFam s (a ++ b) ht hd (by rw [hassoc, List.length_append]; omega),
          feed_eq_salt decFam s a ht hd hsl2, hassoc, htk, hdp,
          processFrames_append (decFam ((s.rx ++ a).take SALT_SIZE))
            ((s.rx ++ a).drop SALT_SIZE).length s.ctx ((s.rx ++ a).drop SALT_SIZE) b
            (Nat.le_refl _)]
        cases hterm : (processFrames (decFam ((s.rx ++ a).take SALT_SIZE)) s.ctx
            ((s.rx ++ a).drop SALT_SIZE)).term with
        | true =>
          simp only [hterm, if_true]
          rw [feed_eq_term decFam _ b rfl]
          simp
        | false =>
          simp only [hterm, Bool.false_eq_true, if_false]
          rw [feed_eq_dec decFam _ b rfl rfl]

theorem feedList_join (decFam : List Nat → Nat → List Nat → List Nat → Option (List Nat)) :
    ∀ (ds : List (List Nat)) (s : IFState), Quiescent s →
      feedList decFam s ds = feed decFam s ds.flatten := by
  intro ds
  induction ds with
  | nil =>
    intro s hq
    simp only [feedList, List.flatten_nil]
    exact (feed_nil_of_quiescent decFam s hq).symm
  | cons d ds ih =>
    intro s hq
    simp only [feedList, List.flatten_cons]
    rw [feed_append decFam s d ds.flatten, ih (feed decFam s d).1 (feed_quiescent decFam s d hq)]

/-- **C5.** For every byte stream and every way of splitting it into chunks fed
one at a time to the Inbound Framer (accumulating into `rx`), the resulting
state and the sequence of emitted plaintext payloads are identical to feeding
the stream in one piece: the framer is split-agnostic. -/
theorem c5_framer_split_agnostic
    (decFam : List Nat → Nat → List Nat → List Nat → Option (List Nat))
    (ds : List (List Nat)) :
    feedList decFam ifInit ds = feed decFam ifInit ds.flatten :=
  feedList_join decFam ds ifInit (Or.inr (Or.inl ⟨rfl, by decide⟩))

/-- **C1 counterexample.**  A length frame decrypting to `0xFFFF > 0x3FFF` is
not reported as `InvalidFrame`: the connection is not terminated and
`cipherTextSize` is set to 65535.  The decrypt function stands for a decipher
under which the first frame authenticates with plaintext `FF FF`; the input is
a 32-byte salt followed by one 18-byte frame. -/
theorem c1_counterexample :
    (feed (fun _ _ _ _ => some [255, 255]) ifInit
        (List.replicate 32 0 ++ List.replicate 18 7)).1.terminated = false ∧
    (feed (fun _ _ _ _ => some [255, 255]) ifInit
        (List.replicate 32 0 ++ List.replicate 18 7)).1.ctx.cipherTextSize = 65535 := by
  decide

/-- **C1 (amended).**  When a length frame authenticates, the decoded
big-endian 16-bit value is installed as the next expected ciphertext size
unconditionally — the decrypt loop performs no range check on it (`server.mjs`
line 125), so `L = 0` or `L > 0x3FFF` does not produce `InvalidFrame` and the
connection is not terminated; processing simply continues with
`cipherTextSize = L`. -/
theorem c1_no_length_check (dec : Nat → List Nat → List Nat → Option (List Nat))
    (ctx : DecCtx) (data : List Nat) (plainText : List Nat)
    (hlong : ctx.cipherTextSize + TAG_SIZE ≤ data.length)
    (heven : ctx.chunkIndex % 2 = 0)
    (hdec : dec ctx.nonce ((data.take (ctx.cipherTextSize + TAG_SIZE)).take ctx.cipherTextSize)
      ((data.take (ctx.cipherTextSize + TAG_SIZE)).drop ctx.cipherTextSize) = some plainText) :
    processFrames dec ctx data =
      processFrames dec ⟨ctx.nonce + 1, readUInt16BE plainText, ctx.chunkIndex + 1⟩
        (data.drop (ctx.cipherTextSize + TAG_SIZE)) :=
  processFrames_even dec ctx data plainText hlong heven hdec

/-- Witness for `c1_no_length_check` at a concrete frame decrypting to
`0xFFFF`. -/
theorem c1_no_length_check_witness :
    processFrames (fun _ _ _ => some [255, 255]) ⟨0, 2, 0⟩ (List.replicate 18 7) =
      processFrames (fun _ _ _ => some [255, 255]) ⟨1, 65535, 1⟩ [] :=
  c1_no_length_check (fun _ _ _ => some [255, 255]) ⟨0, 2, 0⟩ (List.replicate 18 7)
    [255, 255] (by decide) (by decide) (by decide)

/-- **C4.**  When decryption of a frame fails authentication, the decrypt loop
emits no payload from that frame or any later frame of the message — the loop
aborts with `term = true` and everything not yet processed is discarded
(lines 118–122); and a terminated connection processes no further input, so
no later frame of the stream is decrypted or enqueued either. -/
theorem c4_decrypt_failure_aborts
    (dec : Nat → List Nat → List Nat → Option (List Nat)) (ctx : DecCtx) (data : List Nat)
    (decFam : List Nat → Nat → List Nat → List Nat → Option (List Nat))
    (s : IFState) (input : List Nat)
    (hlong : ctx.cipherTextSize + TAG_SIZE ≤ data.length)
    (hfail : dec ctx.nonce ((data.take (ctx.cipherTextSize + TAG_SIZE)).take ctx.cipherTextSize)
      ((data.take (ctx.cipherTextSize + TAG_SIZE)).drop ctx.cipherTextSize) = none)
    (hterm : s.terminated = true) :
    processFrames dec ctx data = ⟨ctx, [], [], true⟩ ∧ feed decFam s input = (s, []) :=
  ⟨processFrames_fail dec ctx data hlong hfail, feed_eq_term decFam s input hterm⟩

/-- Witness for `c4_decrypt_failure_aborts`: a frame whose tag verification
fails, and a terminated state receiving further bytes. -/
theorem c4_decrypt_failure_aborts_witness :
    processFrames (fun _ _ _ => none) ⟨0, 2, 0⟩ (List.replicate 18 0) =
      ⟨⟨0, 2, 0⟩, [], [], true⟩ ∧
    feed (fun _ _ _ _ => none) ⟨[], true, [], ⟨0, 2, 0⟩, true⟩ [1, 2, 3] =
      (⟨[], true, [], ⟨0, 2, 0⟩, true⟩, []) :=
  c4_decrypt_failure_aborts (fun _ _ _ => none) ⟨0, 2, 0⟩ (List.replicate 18 0)
    (fun _ _ _ _ => none) ⟨[], true, [], ⟨0, 2, 0⟩, true⟩ [1, 2, 3]
    (by decide) (by decide) (by decide)

/-- Fuel-indexed version of the `remote.on('data')` encrypt loop
(`server.mjs` lines 198–205): split off at most `0x3fff` plaintext bytes,
push `encrypt(uint16be(len))` then `encrypt(payload)` (each frame is
ciphertext followed by tag), advance the nonce twice, repeat.  Any fuel of at
least `data.length` is enough. -/
def ofd (enc : Nat → List Nat → List Nat × List Nat) :
    Nat → Nat → List Nat → Nat × List (List Nat)
  | 0, n, _ => (n, [])
  | fuel + 1, n, data =>
    match data with
    | [] => (n, [])
    | x :: xs =>
      let payload := (x :: xs).take 0x3fff
      let f1 := (enc n (uint16be payload.length)).1 ++ (enc n (uint16be payload.length)).2
      let f2 := (enc (n + 1) payload).1 ++ (enc (n + 1) payload).2
      let r := ofd enc fuel (n + 2) ((x :: xs).drop 0x3fff)
      (r.1, f1 :: f2 :: r.2)

/-- The encrypt loop of `remote.on('data')`: returns the advanced encrypt
nonce and the list of frames pushed onto `tx`. -/
def ofData (enc : Nat → List Nat → List Nat × List Nat) (n : Nat) (data : List Nat) :
    Nat × List (List Nat) :=
  ofd enc data.length n data

theorem ofd_nil (enc : Nat → List Nat → List Nat × List Nat) (fuel n : Nat) :
    ofd enc fuel n [] = (n, []) := by
  cases fuel <;> rfl

theorem ofd_fuel_congr (enc : Nat → List Nat → List Nat × List Nat) :
    ∀ f g n data, data.length ≤ f → data.length ≤ g →
      ofd enc f n data = ofd enc g n data := by
  intro f
  induction f with
  | zero =>
    intro g n data hf _
    have : data = [] := List.length_eq_zero.mp (Nat.le_zero.mp hf)
    subst this
    rw [ofd_nil, ofd_nil]
  | succ f ih =>
    intro g n data hf hg
    cases data with
    | nil => rw [ofd_nil, ofd_nil]
    | cons x xs =>
      cases g with
      | zero => simp at hg
      | succ g =>
        simp only [ofd]
        have hlf : ((x :: xs).drop 0x3fff).length ≤ f := by
          simp only [List.length_drop, List.length_cons]
          simp only [List.length_cons] at hf
          omega
        have hlg : ((x :: xs).drop 0x3fff).length ≤ g := by
          simp only [List.length_drop, List.length_cons]
          simp only [List.length_cons] at hg
          omega
        rw [ih g _ _ hlf hlg]

theorem ofData_nil (enc : Nat → List Nat → List Nat × List Nat) (n : Nat) :
    ofData enc n [] = (n, []) := rfl

theorem ofData_cons (enc : Nat → List Nat → List Nat × List Nat) (n x : Nat) (xs : List Nat) :
    ofData enc n (x :: xs) =
      ((ofData enc (n + 2) ((x :: xs).drop 0x3fff)).1,
       ((enc n (uint16be ((x :: xs).take 0x3fff).length)).1 ++
        (enc n (uint16be ((x :: xs).take 0x3fff).length)).2) ::
       ((enc (n + 1) ((x :: xs).take 0x3fff)).1 ++
        (enc (n + 1) ((x :: xs).take 0x3fff)).2) ::
       (ofData enc (n + 2) ((x :: xs).drop 0x3fff)).2) := by
  show ofd enc (x :: xs).length n (x :: xs) = _
  rw [List.length_cons]
  simp only [ofd]
  rw [ofd_fuel_congr enc xs.length ((x :: xs).drop 0x3fff).length (n + 2) _
    (by simp only [List.length_drop, List.length_cons]; omega) (Nat.le_refl _)]
  rfl

/-- The chunking the loop induces on its input: pieces of at most `0x3fff`
bytes (fuel-indexed helper). -/
def chf : Nat → List Nat → List (List Nat)
  | 0, _ => []
  | fuel + 1, data =>
    match data with
    | [] => []
    | x :: xs => (x :: xs).take 0x3fff :: chf fuel ((x :: xs).drop 0x3fff)

/-- The chunking of one `remote.on('data')` input buffer. -/
def chunksOf (data : List Nat) : List (List Nat) := chf data.length data

theorem chf_nil (fuel : Nat) : chf fuel [] = [] := by
  cases fuel <;> rfl

theorem chf_fuel_congr :
    ∀ f g data, data.length ≤ f → data.length ≤ g → chf f data = chf g data := by
  intro f
  induction f with
  | zero =>
    intro g data hf _
    have : data = [] := List.length_eq_zero.mp (Nat.le_zero.mp hf)
    subst this
    rw [chf_nil, chf_nil]
  | succ f ih =>
    intro g data hf hg
    cases data with
    | nil => rw [chf_nil, chf_nil]
    | cons x xs =>
      cases g with
      | zero => simp at hg
      | succ g =>
        simp only [chf]
        have hlf : ((x :: xs).drop 0x3fff).length ≤ f := by
          simp only [List.length_drop, List.length_cons]
          simp only [List.length_cons] at hf
          omega
        have hlg : ((x :: xs).drop 0x3fff).length ≤ g := by
          simp only [List.length_drop, List.length_cons]
          simp only [List.length_cons] at hg
          omega
        rw [ih g _ hlf hlg]

theorem chunksOf_cons (x : Nat) (xs : List Nat) :
    chunksOf (x :: xs) = (x :: xs).take 0x3fff :: chunksOf ((x :: xs).drop 0x3fff) := by
  show chf (x :: xs).length (x :: xs) = _
  rw [List.length_cons]
  simp only [chf]
  rw [chf_fuel_congr xs.length ((x :: xs).drop 0x3fff).length _
    (by simp only [List.length_drop, List.length_cons]; omega) (Nat.le_refl _)]
  rfl

/-- The frame sequence the Outbound Framer should emit for a given chunk
list: for each chunk, a length frame then a payload frame, nonce advancing
per frame. -/
def ofFrames (enc : Nat → List Nat → List Nat × List Nat) :
    Nat → List (List Nat) → List (List Nat)
  | _, [] => []
  | n, c :: cs =>
    ((enc n (uint16be c.length)).1 ++ (enc n (uint16be c.length)).2) ::
    ((enc (n + 1) c).1 ++ (enc (n + 1) c).2) :: ofFrames enc (n + 2) cs

theorem ofData_frames (enc : Nat → List Nat → List Nat × List Nat) :
    ∀ m n (data : List Nat), data.length ≤ m →
      (ofData enc n data).2 = ofFrames enc n (chunksOf data) ∧
      (ofData enc n data).1 = n + 2 * (chunksOf data).length := by
  intro m
  induction m with
  | zero =>
    intro n data hm
    have : data = [] := List.length_eq_zero.mp (Nat.le_zero.mp hm)
    subst this
    exact ⟨rfl, rfl⟩
  | succ m ih =>
    intro n data hm
    cases data with
    | nil => exact ⟨rfl, rfl⟩
    | cons x xs =>
      have hlen : ((x :: xs).drop 0x3fff).length ≤ m := by
        simp only [List.length_drop, List.length_cons]
        simp only [List.length_cons] at hm
        omega
      obtain ⟨ih1, ih2⟩ := ih (n + 2) ((x :: xs).drop 0x3fff) hlen
      rw [ofData_cons, chunksOf_cons]
      constructor
      · simp only [ofFrames, ih1]
      · simp only [List.length_cons, ih2]
        ring

theorem chunksOf_spec :
    ∀ m (data : List Nat), data.length ≤ m →
      (∀ c ∈ chunksOf data, 1 ≤ c.length ∧ c.length ≤ 0x3fff) ∧
      (chunksOf data).flatten = data := by
  intro m
  induction m with
  | zero =>
    intro data hm
    have : data = [] := List.length_eq_zero.mp (Nat.le_zero.mp hm)
    subst this
    exact ⟨by simp [chunksOf, chf], rfl⟩
  | succ m ih =>
    intro data hm
    cases data with
    | nil => exact ⟨by simp [chunksOf, chf], rfl⟩
    | cons x xs =>
      have hlen : ((x :: xs).drop 0x3fff).length ≤ m := by
        simp only [List.length_drop, List.length_cons]
        simp only [List.length_cons] at hm
        omega
      obtain ⟨ih1, ih2⟩ := ih ((x :: xs).drop 0x3fff) hlen
      rw [chunksOf_cons]
      constructor
      · intro c hc
        rcases List.mem_cons.mp hc with hc | hc
        · subst hc
          constructor
          · simp only [List.length_take, List.length_cons]
            omega
          · simp only [List.length_take]
            omega
        · exact ih1 c hc
      · simp only [List.flatten_cons, ih2, List.take_append_drop]

/-- The WebSocket egress of a connection (`server.mjs` lines 190–211): `tx`
starts holding the server salt; each `remote.on('data')` event appends its
frames to `tx`, sends `Buffer.concat(tx)` as one WebSocket message, and
resets `tx` to `[]`.  Given the pending `tx`, the encrypt nonce, and the
sequence of data events, returns the sequence of WebSocket messages sent. -/
def ofEvents (enc : Nat → List Nat → List Nat × List Nat) :
    List (List Nat) → Nat → List (List Nat) → List (List Nat)
  | _, _, [] => []
  | tx, n, d :: ds =>
    (tx ++ (ofData enc n d).2).flatten :: ofEvents enc [] (ofData enc n d).1 ds

/-- WebSocket messages sent for a connection whose `tx` was initialized with
the server salt (lines 190–191). -/
def ofMessages (enc : Nat → List Nat → List Nat × List Nat) (salt : List Nat)
    (ds : List (List Nat)) : List (List Nat) :=
  ofEvents enc [salt] 0 ds

/-- **C7.**  The Outbound Framer sends the server salt as the very first bytes
of WebSocket egress exactly once: the first remote-data event produces the
message `salt ++ frames(d)`, and every later event produces just its own
frames (its `tx` starts empty).  Each input buffer is chunked into pieces of
at most `0x3fff` plaintext bytes, and the frames for an input are
`encrypt(uint16be(len))` then `encrypt(chunk)` per chunk, all coalesced into
a single WebSocket message. -/
theorem c7_outbound_framer (enc : Nat → List Nat → List Nat × List Nat)
    (salt d : List Nat) (ds : List (List Nat)) :
    ofMessages enc salt (d :: ds) =
      (salt ++ ((ofData enc 0 d).2).flatten) :: ofEvents enc [] (ofData enc 0 d).1 ds ∧
    (∀ n dd, (ofData enc n dd).2 = ofFrames enc n (chunksOf dd)) ∧
    (∀ dd c, c ∈ chunksOf dd → c.length ≤ 0x3fff) := by
  refine ⟨?_, ?_, ?_⟩
  · simp only [ofMessages, ofEvents, List.singleton_append, List.flatten_cons]
  · intro n dd
    exact (ofData_frames enc dd.length n dd (Nat.le_refl _)).1
  · intro dd c hc
    exact ((chunksOf_spec dd.length dd (Nat.le_refl _)).1 c hc).2

/-- **C10.**  For every buffer received from the remote, the chunking produces
only non-empty chunks of at most `0x3fff` bytes (so every emitted length
frame encodes a value in `[1, 0x3FFF]`), the concatenation of the chunk
plaintexts is exactly the input buffer, and the frames the loop emits are
precisely a length frame followed by a payload frame per chunk. -/
theorem c10_chunking_exact (enc : Nat → List Nat → List Nat × List Nat)
    (n : Nat) (d : List Nat) :
    (∀ c ∈ chunksOf d, 1 ≤ c.length ∧ c.length ≤ 0x3fff) ∧
    (chunksOf d).flatten = d ∧
    (ofData enc n d).2 = ofFrames enc n (chunksOf d) :=
  ⟨(chunksOf_spec d.length d (Nat.le_refl _)).1,
   (chunksOf_spec d.length d (Nat.le_refl _)).2,
   (ofData_frames enc d.length n d (Nat.le_refl _)).1⟩

/-- `readUInt16BE` inverts `uint16be` below `2¹⁶`. -/
theorem readUInt16BE_uint16be (L : Nat) (h : L < 65536) :
    readUInt16BE (uint16be L) = L := by
  simp only [uint16be, readUInt16BE]
  omega

/-- Concatenating the Outbound Framer's output over a sequence of remote-data
events: final nonce and all frames in order. -/
def ofSeq (enc : Nat → List Nat → List Nat × List Nat) :
    Nat → List (List Nat) → Nat × List (List Nat)
  | n, [] => (n, [])
  | n, d :: ds =>
    let r := ofData enc n d
    let r2 := ofSeq enc r.1 ds
    (r2.1, r.2 ++ r2.2)

/-- Round-trip core: frames produced by the Outbound Framer for payloads of
length in `[1, 0x3fff]`, decrypted by the Inbound Framer's loop from a
matching even context, yield exactly those payloads.  `m` is both the nonce
and the chunk index (they advance together from 0). -/
theorem frames_roundtrip (enc : Nat → List Nat → List Nat × List Nat)
    (dec : Nat → List Nat → List Nat → Option (List Nat))
    (hinv : ∀ n pt, dec n (enc n pt).1 (enc n pt).2 = some pt)
    (hct : ∀ n pt, (enc n pt).1.length = pt.length)
    (htag : ∀ n pt, (enc n pt).2.length = TAG_SIZE) :
    ∀ (ps : List (List Nat)) (m : Nat), m % 2 = 0 →
      (∀ p ∈ ps, 1 ≤ p.length ∧ p.length ≤ 0x3fff) →
      processFrames dec ⟨m, 2, m⟩ (((ofSeq enc m ps).2).flatten) =
        ⟨⟨m + 2 * ps.length, 2, m + 2 * ps.length⟩, [], ps, false⟩ := by
  intro ps
  induction ps with
  | nil =>
    intro m hm hps
    simp only [ofSeq, List.flatten_nil]
    rw [processFrames_nil]
    simp
  | cons p ps ih =>
    intro m hm hps
    obtain ⟨hp1, hp2⟩ := hps p (List.mem_cons_self p ps)
    have hofd : ofData enc m p = (m + 2,
        [(enc m (uint16be p.length)).1 ++ (enc m (uint16be p.length)).2,
         (enc (m + 1) p).1 ++ (enc (m + 1) p).2]) := by
      cases p with
      | nil => simp at hp1
      | cons y ys =>
        rw [ofData_cons]
        rw [List.take_of_length_le hp2, List.drop_eq_nil_of_le hp2, ofData_nil]
    have hseq : ((ofSeq enc m (p :: ps)).2).flatten =
        ((enc m (uint16be p.length)).1 ++ (enc m (uint16be p.length)).2) ++
        (((enc (m + 1) p).1 ++ (enc (m + 1) p).2) ++ ((ofSeq enc (m + 2) ps).2).flatten) := by
      simp [ofSeq, hofd, List.append_assoc]
    rw [hseq]
    have hct1 : (enc m (uint16be p.length)).1.length = 2 := hct m (uint16be p.length)
    have hf1len : ((enc m (uint16be p.length)).1 ++ (enc m (uint16be p.length)).2).length =
        2 + TAG_SIZE := by
      rw [List.length_append, hct1, htag]
    have hlong1 : 2 + TAG_SIZE ≤
        (((enc m (uint16be p.length)).1 ++ (enc m (uint16be p.length)).2) ++
         (((enc (m + 1) p).1 ++ (enc (m + 1) p).2) ++
          ((ofSeq enc (m + 2) ps).2).flatten)).length := by
      rw [List.length_append, hf1len]
      omega
    have hdec1 : dec m
        (((((enc m (uint16be p.length)).1 ++ (enc m (uint16be p.length)).2) ++
           (((enc (m + 1) p).1 ++ (enc (m + 1) p).2) ++
            ((ofSeq enc (m + 2) ps).2).flatten)).take (2 + TAG_SIZE)).take 2)
        (((((enc m (uint16be p.length)).1 ++ (enc m (uint16be p.length)).2) ++
           (((enc (m + 1) p).1 ++ (enc (m + 1) p).2) ++
            ((ofSeq enc (m + 2) ps).2).flatten)).take (2 + TAG_SIZE)).drop 2) =
        some (uint16be p.length) := by
      rw [List.take_left' hf1len, List.take_left' hct1, List.drop_left' hct1]
      exact hinv m (uint16be p.length)
    rw [processFrames_even dec ⟨m, 2, m⟩ _ (uint16be p.length) hlong1 hm hdec1]
    rw [List.drop_left' hf1len]
    rw [readUInt16BE_uint16be p.length (by omega)]
    have hct2 : (enc (m + 1) p).1.length = p.length := hct (m + 1) p
    have hf2len : ((enc (m + 1) p).1 ++ (enc (m + 1) p).2).length = p.length + TAG_SIZE := by
      rw [List.length_append, hct2, htag]
    have hlong2 : p.length + TAG_SIZE ≤
        (((enc (m + 1) p).1 ++ (enc (m + 1) p).2) ++
         ((ofSeq enc (m + 2) ps).2).flatten).length := by
      rw [List.length_append, hf2len]
      omega
    have hodd : ¬ (m + 1) % 2 = 0 := by omega
    have hdec2 : dec (m + 1)
        ((((((enc (m + 1) p).1 ++ (enc (m + 1) p).2) ++
            ((ofSeq enc (m + 2) ps).2).flatten)).take (p.length + TAG_SIZE)).take p.length)
        ((((((enc (m + 1) p).1 ++ (enc (m + 1) p).2) ++
            ((ofSeq enc (m + 2) ps).2).flatten)).take (p.length + TAG_SIZE)).drop p.length) =
        some p := by
      rw [List.take_left' hf2len, List.take_left' hct2, List.drop_left' hct2]
      exact hinv (m + 1) p
    rw [processFrames_odd dec ⟨m + 1, p.length, m + 1⟩ _ p hlong2 hodd hdec2]
    rw [List.drop_left' hf2len]
    rw [ih (m + 2) (by omega) (fun q hq => hps q (List.mem_cons_of_mem p hq))]
    simp only [List.length_cons]
    rw [show m + 2 + 2 * ps.length = m + 2 * (ps.length + 1) from by ring]

/-- A concrete AEAD model used to instantiate the abstract cipher in
witnesses: ciphertext is the plaintext itself, the tag is sixteen zero
bytes. -/
def mockEnc : Nat → List Nat → List Nat × List Nat :=
  fun _ pt => (pt, List.replicate 16 0)

/-- Decryption side of `mockEnc`: verifies the tag, then returns the
ciphertext. -/
def mockDec : Nat → List Nat → List Nat → Option (List Nat) :=
  fun _ ct tag => if tag = List.replicate 16 0 then some ct else none

/-- **C6 counterexample.**  The round trip fails for an empty plaintext: the
Outbound Framer's loop runs zero iterations on an empty buffer, so encrypting
the sequence `[[]]` (one empty plaintext, length `0 ≤ 0x3FFF`) produces no
frame at all, and the Inbound Framer yields `[]`, not `[[]]`. -/
theorem c6_counterexample :
    (feed (fun _ => mockDec) ifInit
        (List.replicate 32 0 ++ ((ofSeq mockEnc 0 [[]]).2).flatten)).2 ≠ [[]] := by
  decide

/-- **C6 (amended).**  For all plaintexts `P₁…Pₙ` each of length in
`[1, 0x3FFF]`, encrypting them with the Outbound Framer under salt `s` and a
sub-key whose AEAD inverts (`hinv`, with length-preserving ciphertexts `hct`
and `TAG_SIZE` tags `htag`), then feeding `s` followed by the concatenated
frames to the Inbound Framer whose decipher family maps `s` to that AEAD,
yields exactly `P₁…Pₙ` in order (and the framer ends in a clean state).
Plaintexts of length 0 are excluded: the Outbound Framer emits no frame for
an empty buffer (`c6_counterexample`). -/
theorem c6_roundtrip (decFam : List Nat → Nat → List Nat → List Nat → Option (List Nat))
    (enc : Nat → List Nat → List Nat × List Nat)
    (dec : Nat → List Nat → List Nat → Option (List Nat))
    (s : List Nat) (ps : List (List Nat))
    (hsalt : s.length = SALT_SIZE)
    (hfam : decFam s = dec)
    (hinv : ∀ n pt, dec n (enc n pt).1 (enc n pt).2 = some pt)
    (hct : ∀ n pt, (enc n pt).1.length = pt.length)
    (htag : ∀ n pt, (enc n pt).2.length = TAG_SIZE)
    (hps : ∀ p ∈ ps, 1 ≤ p.length ∧ p.length ≤ 0x3fff) :
    feed decFam ifInit (s ++ ((ofSeq enc 0 ps).2).flatten) =
      (⟨[], true, s, ⟨2 * ps.length, 2, 2 * ps.length⟩, false⟩, ps) := by
  rw [show ifInit = (⟨[], false, [], ⟨0, 2, 0⟩, false⟩ : IFState) from rfl]
  rw [feed_eq_salt decFam _ _ rfl rfl
    (by simp only [List.nil_append, List.length_append, hsalt]; omega)]
  simp only [List.nil_append]
  rw [List.take_left' hsalt, List.drop_left' hsalt, hfam]
  rw [frames_roundtrip enc dec hinv hct htag ps 0 rfl hps]
  simp

/-- Witness for `c6_roundtrip`: two plaintexts through the mock AEAD. -/
theorem c6_roundtrip_witness :
    feed (fun _ => mockDec) ifInit
        (List.replicate 32 0 ++ ((ofSeq mockEnc 0 [[1], [2, 3]]).2).flatten) =
      (⟨[], true, List.replicate 32 0, ⟨4, 2, 4⟩, false⟩, [[1], [2, 3]]) :=
  c6_roundtrip (fun _ => mockDec) mockEnc mockDec (List.replicate 32 0) [[1], [2, 3]]
    rfl rfl (fun n pt => by simp [mockEnc, mockDec]) (fun n pt => rfl)
    (fun n pt => rfl) (by decide)

/-- `buf.readUInt16BE(i)` with Node's bounds check: `none` models the
`ERR_OUT_OF_RANGE` throw when fewer than two bytes exist at offset `i`. -/
def readU16At (l : List Nat) (i : Nat) : Option Nat :=
  match l.drop i with
  | a :: b :: _ => some (a * 256 + b)
  | _ => none

theorem readU16At_eq_none_iff (l : List Nat) (i : Nat) :
    readU16At l i = none ↔ l.length < i + 2 := by
  unfold readU16At
  cases hd : l.drop i with
  | nil =>
    have hl := congrArg List.length hd
    simp only [List.length_drop, List.length_nil] at hl
    simp only [true_iff]
    omega
  | cons u us =>
    cases us with
    | nil =>
      have hl := congrArg List.length hd
      simp only [List.length_drop, List.length_cons, List.length_nil] at hl
      simp only [true_iff]
      omega
    | cons v vs =>
      have hl := congrArg List.length hd
      simp only [List.length_drop, List.length_cons] at hl
      simp only [reduceCtorEq, false_iff]
      omega

/-- Outcome of the address-header parse (`server.mjs` lines 145–167).
`invalidAtyp` is the `default` branch (log at warn, `ws.terminate()`);
`thrown` models an uncaught `readUInt16BE` range error on a payload shorter
than its declared layout — the code performs no length validation. -/
inductive ParseResult where
  | ok (atyp : Nat) (addr : List Nat) (port : Nat) (trailer : List Nat)
  | invalidAtyp
  | thrown
deriving DecidableEq, Repr

/-- The `switch (address[0])` parse of the first payload (lines 146–167).
`addr` keeps the raw address bytes (`inet_ntoa` / `inet_ntop` formatting and
the domain's `toString` live in `util.mjs` and only affect the display
string).  `subarray` clamps, so short reads surface only at
`readUInt16BE`. -/
def parseAddress (a : List Nat) : ParseResult :=
  match a.head? with
  | none => .invalidAtyp
  | some atyp =>
    if atyp = 3 then
      match a[1]? with
      | none => .thrown
      | some n =>
        match readU16At a (2 + n) with
        | none => .thrown
        | some port => .ok 3 ((a.drop 2).take n) port (a.drop (4 + n))
    else if atyp = 1 then
      match readU16At a 5 with
      | none => .thrown
      | some port => .ok 1 ((a.drop 1).take 4) port (a.drop 7)
    else if atyp = 4 then
      match readU16At a 17 with
      | none => .thrown
      | some port => .ok 4 ((a.drop 1).take 16) port (a.drop 19)
    else .invalidAtyp

/-- **C3 counterexample.**  A payload declaring IPv4 (`ATYP = 1`) but only one
byte long does not produce the `InvalidAddress` terminate-with-warn path: the
`readUInt16BE(5)` call throws an out-of-range error instead. -/
theorem c3_counterexample :
    parseAddress [1] = ParseResult.thrown ∧
    parseAddress [1] ≠ ParseResult.invalidAtyp := by
  decide

/-- **C3 (amended).**  A first payload whose `ATYP` byte is not 1, 3 or 4
(including an empty payload) is rejected via the `default` branch
(`InvalidAddress`: warn and terminate).  But a payload with a recognized
`ATYP` that is shorter than its declared layout (7 bytes for IPv4, 2 resp.
`4 + N` for a domain, 19 for IPv6) makes `readUInt16BE` throw an uncaught
range error — the code does not map short payloads to `InvalidAddress`. -/
theorem c3_address_errors (a : List Nat) :
    (∀ atyp, a.head? = some atyp → atyp ≠ 1 → atyp ≠ 3 → atyp ≠ 4 →
      parseAddress a = .invalidAtyp) ∧
    (a = [] → parseAddress a = .invalidAtyp) ∧
    (a.head? = some 1 → a.length < 7 → parseAddress a = .thrown) ∧
    (a.head? = some 4 → a.length < 19 → parseAddress a = .thrown) ∧
    (a.head? = some 3 → a.length < 2 → parseAddress a = .thrown) ∧
    (∀ n, a.head? = some 3 → a[1]? = some n → a.length < 4 + n →
      parseAddress a = .thrown) := by
  refine ⟨?_, ?_, ?_, ?_, ?_, ?_⟩
  · intro atyp h h1 h3 h4
    cases a with
    | nil => simp at h
    | cons x xs =>
      simp only [List.head?_cons, Option.some_inj] at h
      subst h
      simp [parseAddress, h1, h3, h4]
  · intro h
    subst h
    rfl
  · intro h hlen
    cases a with
    | nil => simp at h
    | cons x xs =>
      simp only [List.head?_cons, Option.some_inj] at h
      subst h
      have hr : readU16At (1 :: xs) 5 = none := by
        rw [readU16At_eq_none_iff]
        simp only [List.length_cons] at hlen ⊢
        omega
      simp [parseAddress, hr]
  · intro h hlen
    cases a with
    | nil => simp at h
    | cons x xs =>
      simp only [List.head?_cons, Option.some_inj] at h
      subst h
      have hr : readU16At (4 :: xs) 17 = none := by
        rw [readU16At_eq_none_iff]
        simp only [List.length_cons] at hlen ⊢
        omega
      simp [parseAddress, hr]
  · intro h hlen
    cases a with
    | nil => simp at h
    | cons x xs =>
      simp only [List.head?_cons, Option.some_inj] at h
      subst h
      cases xs with
      | nil => rfl
      | cons y ys =>
        simp only [List.length_cons] at hlen
        omega
  · intro n h hn hlen
    cases a with
    | nil => simp at h
    | cons x xs =>
      simp only [List.head?_cons, Option.some_inj] at h
      subst h
      have hr : readU16At (3 :: xs) (2 + n) = none := by
        rw [readU16At_eq_none_iff]
        omega
      simp [parseAddress, hn, hr]

/-- Witness for `c3_address_errors` at representative inputs: unknown ATYP 9,
the empty payload, and a 1-byte IPv4 payload. -/
theorem c3_address_errors_witness :
    parseAddress [9, 0, 0] = ParseResult.invalidAtyp ∧
    parseAddress [] = ParseResult.invalidAtyp ∧
    parseAddress [1] = ParseResult.thrown :=
  ⟨(c3_address_errors [9, 0, 0]).1 9 rfl (by decide) (by decide) (by decide),
   (c3_address_errors []).2.1 rfl,
   (c3_address_errors [1]).2.2.1 rfl (by decide)⟩

/-- Outcome of consuming the first payload in the `CLOSED` branch
(lines 142–171): either proceed to connect with the parsed target and the
updated queue, terminate (bad ATYP), or throw (short payload). -/
inductive ConsumeOut where
  | proceed (atyp : Nat) (addr : List Nat) (port : Nat) (q : List (List Nat))
  | terminate
  | thrown
deriving DecidableEq, Repr

/-- `payloads.shift()` has produced `a`; `rest` is the remaining queue.  After
a successful parse, a non-empty trailer is put back with `payloads.push`
(line 169) — i.e. appended at the **tail** of the queue. -/
def consumeFirst (a : List Nat) (rest : List (List Nat)) : ConsumeOut :=
  match parseAddress a with
  | .invalidAtyp => .terminate
  | .thrown => .thrown
  | .ok atyp addr port trailer =>
    .proceed atyp addr port (if trailer = [] then rest else rest ++ [trailer])

/-- **C2 (code bug).**  The trailing bytes after the address header are
appended at the *tail* of the payload queue (`payloads.push(address)`,
line 169), not re-enqueued at the head: with IPv4 header `9.9.9.9:80`
carrying trailing byte `42` and a second payload `[7]` already queued, the
resulting queue is `[[7], [42]]` — payload `[7]` is written to the remote
before the trailing byte, violating the required stream order. -/
theorem c2_trailer_appended_at_tail :
    consumeFirst [1, 9, 9, 9, 9, 0, 80, 42] [[7]] =
      ConsumeOut.proceed 1 [9, 9, 9, 9] 80 [[7], [42]] ∧
    ([[7], [42]] : List (List Nat)) ≠ [[42], [7]] := by
  decide

/-- Actions of the queue-drain loop (`server.mjs` lines 222–231), in program
order: a remote write returning `accepted`, `ws.pause()`, awaiting the
remote's `drain` event, `ws.resume()`. -/
inductive DrainAct where
  | write (p : List Nat) (accepted : Bool)
  | pause
  | awaitDrain
  | resume
deriving DecidableEq, Repr

/-- Action trace of the drain loop: `w i` tells whether the `i`-th
`remote.write` is accepted (`true`) or returns `false` ("must wait").  On
`false` the loop pauses the WebSocket, awaits `drain`, and resumes — in that
order, before the next write (lines 224–228). -/
def drainActions (w : Nat → Bool) : Nat → List (List Nat) → List DrainAct
  | _, [] => []
  | i, p :: ps =>
    if w i then
      .write p true :: drainActions w (i + 1) ps
    else
      .write p false :: .pause :: .awaitDrain :: .resume :: drainActions w (i + 1) ps

/-- **C8.**  In the drain loop's trace, every remote write that reports "must
wait" is immediately followed by pausing the WebSocket ingress, then awaiting
the remote's drain signal, then resuming — nothing (in particular no further
write and no processing of another inbound message, the handler being
suspended at the await) happens in between. -/
theorem c8_backpressure (w : Nat → Bool) (ps : List (List Nat)) (i k : Nat) (p : List Nat)
    (h : (drainActions w i ps)[k]? = some (.write p false)) :
    (drainActions w i ps)[k + 1]? = some .pause ∧
    (drainActions w i ps)[k + 2]? = some .awaitDrain ∧
    (drainActions w i ps)[k + 3]? = some .resume := by
  induction ps generalizing i k with
  | nil => simp [drainActions] at h
  | cons q ps ih =>
    by_cases hw : w i
    · simp only [drainActions, hw, if_true] at h ⊢
      cases k with
      | zero => simp at h
      | succ k =>
        simp only [List.getElem?_cons_succ] at h ⊢
        exact ih (i + 1) k h
    · simp only [drainActions, hw, Bool.false_eq_true, if_false] at h ⊢
      match k with
      | 0 => refine ⟨by simp, by simp, by simp⟩
      | 1 => simp at h
      | 2 => simp at h
      | 3 => simp at h
      | k + 4 =>
        simp only [List.getElem?_cons_succ] at h ⊢
        exact ih (i + 1) k h

/-- Witness for `c8_backpressure`: a single rejected write. -/
theorem c8_backpressure_witness :
    (drainActions (fun _ => false) 0 [[5]])[1]? = some DrainAct.pause ∧
    (drainActions (fun _ => false) 0 [[5]])[2]? = some DrainAct.awaitDrain ∧
    (drainActions (fun _ => false) 0 [[5]])[3]? = some DrainAct.resume :=
  c8_backpressure (fun _ => false) [[5]] 0 0 [5] (by decide)

/-- Connection stages (`server.mjs` lines 13–16); `opn` is the source's
`OPEN` (a Lean keyword). -/
inductive Stage where
  | closed
  | opening
  | writing
  | opn
deriving DecidableEq, Repr, Fintype

/-- Quiescent-state view of one connection: current stage, whether the
`remote` variable is non-null, whether the WebSocket is open, and whether the
handler is suspended at `await connect(port, addr)` (line 176). -/
structure Conn where
  stage : Stage
  remoteSet : Bool
  wsOpen : Bool
  connectPending : Bool
deriving DecidableEq, Repr, Fintype

/-- Events taking one quiescent state to the next.  Each corresponds to a
synchronous stretch of handler code between suspension points:

* `firstPayload` — first payload consumed, address parsed, `stage = OPENING`,
  suspend at `await connect` (lines 142–176);
* `msgInvalid` — a message whose processing terminates the WebSocket
  (authentication failure, bad ATYP; lines 118–121, 163–166);
* `connectFail` — the connect promise rejects: log, terminate (lines 178–181);
* `connectOkOpen` — connect resolves with the WebSocket still open: `remote`
  is set, handlers installed, `stage = WRITING`, suspend in the drain loop
  (lines 176–230);
* `connectOkClosed` — connect resolves after the WebSocket closed: `remote`
  is set then destroyed, handler returns with `stage` still `OPENING`
  (lines 176, 185–188);
* `drainDone` — the drain loop finishes, `stage = OPEN` (lines 223–231);
* `msgWhileOpen` — a payload-bearing message in `OPEN` re-enters the drain
  loop (lines 139–141, 222);
* `wsClose` — the WebSocket closes; the close handler destroys the remote
  socket but never nulls the `remote` variable (lines 234–238);
* `remoteClose` — the remote socket closes; terminates the WebSocket if it is
  still open (lines 216–219). -/
inductive Ev where
  | firstPayload
  | msgInvalid
  | connectFail
  | connectOkOpen
  | connectOkClosed
  | drainDone
  | msgWhileOpen
  | wsClose
  | remoteClose
deriving DecidableEq, Repr, Fintype

/-- One event's effect on the quiescent state; `none` when the event is not
enabled there. -/
def step (c : Conn) : Ev → Option Conn
  | .firstPayload =>
    if c.wsOpen && c.stage == .closed && !c.connectPending then
      some { c with stage := .opening, connectPending := true }
    else none
  | .msgInvalid => if c.wsOpen then some { c with wsOpen := false } else none
  | .connectFail =>
    if c.connectPending then
      some { c with connectPending := false, wsOpen := false }
    else none
  | .connectOkOpen =>
    if c.connectPending && c.wsOpen then
      some { c with connectPending := false, remoteSet := true, stage := .writing }
    else none
  | .connectOkClosed =>
    if c.connectPending && !c.wsOpen then
      some { c with connectPending := false, remoteSet := true }
    else none
  | .drainDone =>
    if c.wsOpen && c.stage == .writing then some { c with stage := .opn } else none
  | .msgWhileOpen =>
    if c.wsOpen && c.stage == .opn then some { c with stage := .writing } else none
  | .wsClose => if c.wsOpen then some { c with wsOpen := false } else none
  | .remoteClose => if c.remoteSet then some { c with wsOpen := false } else none

/-- State of a fresh connection (lines 70–73): `stage = CLOSED`,
`remote = null`, WebSocket open. -/
def connInit : Conn := ⟨.closed, false, true, false⟩

/-- Run a sequence of events from a state. -/
def runFrom (c : Conn) : List Ev → Option Conn
  | [] => some c
  | e :: evs =>
    match step c e with
    | none => none
    | some c2 => runFrom c2 evs

/-- Inductive invariant: while the WebSocket is open, `remote` is non-null
iff the stage is `OPEN` or `WRITING`; and while a connect is pending the
stage is `OPENING` with no remote yet. -/
def connInv (c : Conn) : Bool :=
  (!c.wsOpen || (c.remoteSet == (c.stage == Stage.opn || c.stage == Stage.writing))) &&
  (!c.connectPending || (!c.remoteSet && c.stage == Stage.opening))

theorem step_preserves_inv :
    ∀ (c : Conn) (e : Ev) (c2 : Conn), connInv c = true → step c e = some c2 →
      connInv c2 = true := by
  decide

theorem runFrom_inv :
    ∀ (evs : List Ev) (c c2 : Conn), connInv c = true → runFrom c evs = some c2 →
      connInv c2 = true := by
  intro evs
  induction evs with
  | nil =>
    intro c c2 h hr
    simp only [runFrom, Option.some_inj] at hr
    subst hr
    exact h
  | cons e evs ih =>
    intro c c2 h hr
    simp only [runFrom] at hr
    cases hs : step c e with
    | none => rw [hs] at hr; simp at hr
    | some c1 =>
      rw [hs] at hr
      exact ih c1 c2 (step_preserves_inv c e c1 h hs) hr

/-- **C9 counterexample.**  The `remote`-iff-stage invariant fails after the
WebSocket closes during the connect await: the trace first-payload →
WebSocket close → connect resolves (readyState no longer OPEN) reaches the
quiescent state with `stage = OPENING` and the `remote` variable non-null
(destroyed but never nulled), where the claimed equivalence is false. -/
theorem c9_counterexample :
    runFrom connInit [Ev.firstPayload, Ev.wsClose, Ev.connectOkClosed] =
      some ⟨Stage.opening, true, false, false⟩ ∧
    ¬ (((⟨Stage.opening, true, false, false⟩ : Conn).remoteSet = true) ↔
       ((⟨Stage.opening, true, false, false⟩ : Conn).stage = Stage.opn ∨
        (⟨Stage.opening, true, false, false⟩ : Conn).stage = Stage.writing)) := by
  decide

/-- **C9 (amended).**  In every reachable quiescent state in which the
WebSocket is still open, the remote socket reference is non-null iff the
stage is `OPEN` or `WRITING`.  (After the WebSocket has closed the
equivalence can fail, see `c9_counterexample`.) -/
theorem c9_stage_remote_invariant (evs : List Ev) (c : Conn)
    (h : runFrom connInit evs = some c) (hw : c.wsOpen = true) :
    c.remoteSet = true ↔ (c.stage = Stage.opn ∨ c.stage = Stage.writing) := by
  have hinv : connInv c = true := runFrom_inv evs connInit c (by decide) h
  have hall : ∀ c2 : Conn, connInv c2 = true → c2.wsOpen = true →
      (c2.remoteSet = true ↔ (c2.stage = Stage.opn ∨ c2.stage = Stage.writing)) := by
    decide
  exact hall c hinv hw

/-- Witness for `c9_stage_remote_invariant` at the quiescent state reached by
first-payload → connect-ok (stage `WRITING`, remote set, WebSocket open). -/
theorem c9_stage_remote_invariant_witness :
    (⟨Stage.writing, true, true, false⟩ : Conn).remoteSet = true ↔
      ((⟨Stage.writing, true, true, false⟩ : Conn).stage = Stage.opn ∨
       (⟨Stage.writing, true, true, false⟩ : Conn).stage = Stage.writing) :=
  c9_stage_remote_invariant [Ev.firstPayload, Ev.connectOkOpen]
    ⟨Stage.writing, true, true, false⟩ (by decide) rfl
